import Mathlib

/-!
# goexec: a thread-safe wrapper around `exec.Cmd`

Verification development for `goexec.go`.  The wrapper `Cmd` is embedded as a
record, every method as the sequence of atomic actions it performs on that
record, and a program that calls the methods from several goroutines as an
interleaving transition system (`step`, `Reach`).

Atomicity: a critical section guarded by the embedded `sync.Mutex` is one
action; every other statement that touches shared state (a channel send or
receive, entering or leaving `sync.Once.Do`, the call `cmd.cmd.Wait()`, the
unlocked read of `cmd.waitErr`) is an action of its own.

The process primitive `os/exec` is outside the repository: its `Start` and
`Wait` are a parameter `Prim` of the semantics.
-/

namespace Goexec

/-! ## Data model -/

/-- A Go `error` value: `none` is `nil`, `some msg` an error with that message. -/
abbrev Error := Option String

/-- An `io.Writer` / `io.Reader` interface value: `none` is `nil`. -/
abbrev Stream := Option Nat

/-- Modelled from the spec: `os.ProcessState`, declared in the Go standard
library and not in the repository, as seen through the two methods the
wrapper calls on it, `ExitCode()` and `Exited()`. -/
structure ProcessState where
  exitCode : Int
  exited : Bool
  deriving DecidableEq

/-- Modelled from the spec: `exec.Cmd`, declared in the Go standard library
and not in the repository: the command, its three redirectable streams, the
started process (`nil` until started) and the process state (`nil` until the
process has been waited on). -/
structure ExecCmd where
  Path : String
  Args : List String
  Stdin : Stream
  Stdout : Stream
  Stderr : Stream
  Process : Option Nat
  ProcessState : Option ProcessState
  deriving DecidableEq

/-- Modelled from the spec: the two operations of the external process
primitive (`(*exec.Cmd).Start` and `(*exec.Cmd).Wait`, Go standard library,
not in the repository).  Each maps the `exec.Cmd` it is called on to the
updated `exec.Cmd` and the error it returns; `Wait` gives `none` when the call
never returns. -/
structure Prim where
  Start : ExecCmd → ExecCmd × Error
  Wait : ExecCmd → Option (ExecCmd × Error)

/-- State of a `sync.Once`: not yet used, inside the one call of `f`, or done. -/
inductive Once where
  | fresh
  | running
  | done
  deriving DecidableEq

/-- The struct `Cmd`.  The embedded `sync.Mutex` is represented by the
atomicity of the critical sections; `waitSem` is the number of elements
buffered in the channel `make(chan struct{}, 1)`. -/
structure Cmd where
  start : Once
  wait : Once
  waitSem : Nat
  cmd : ExecCmd
  startErr : Error
  waitErr : Error
  deriving DecidableEq

/-- Capacity of `waitSem`: `make(chan struct{}, 1)`. -/
def waitSemCap : Nat := 1

/-- Constructor `New`: wraps `cmd`; both `sync.Once` are unused, the channel is empty and
both errors are `nil`. -/
def New (cmd : ExecCmd) : Cmd :=
  { start := .fresh, wait := .fresh, waitSem := 0, cmd := cmd, startErr := none, waitErr := none }

/-- Modelled from the spec: `exec.Command(name, args...)` of the Go standard
library: an unstarted command with no stream bound. -/
def execCommand (name : String) (args : List String) : ExecCmd :=
  { Path := name, Args := name :: args, Stdin := none, Stdout := none, Stderr := none,
    Process := none, ProcessState := none }

/-- Constructor `Command`, that is `New(exec.Command(name, args...))`. -/
def Command (name : String) (args : List String) : Cmd :=
  New (execCommand name args)

/-! ## Methods that are a single critical section -/

/-- Method `Cmd.WithOutput`: binds stdout and stderr to `w`; the result is the
receiver, which the method returns. -/
def Cmd.WithOutput (h : Cmd) (w : Stream) : Cmd :=
  { h with cmd := { h.cmd with Stdout := w, Stderr := w } }

/-- Method `Cmd.WithInput`: binds stdin to `r`; the result is the receiver, which the
method returns. -/
def Cmd.WithInput (h : Cmd) (r : Stream) : Cmd :=
  { h with cmd := { h.cmd with Stdin := r } }

/-- Method `Cmd.ExitCode`. -/
def Cmd.ExitCode (h : Cmd) : Int × Error :=
  match h.cmd.ProcessState with
  | none => (-1, some "command was not run yet")
  | some ps => (ps.exitCode, none)

/-- Method `Cmd.Exited`. -/
def Cmd.Exited (h : Cmd) : Bool :=
  match h.cmd.ProcessState with
  | none => false
  | some ps => ps.exited

/-! ## Calls, goroutines and the interleaving semantics -/

/-- A method call made by a client goroutine. -/
inductive Op where
  | start
  | run
  | wait
  | exited
  | exitCode
  | withOutput (w : Stream)
  | withInput (r : Stream)
  deriving DecidableEq

/-- What a call returned. -/
inductive Ret where
  | err (e : Error)
  | code (n : Int) (e : Error)
  | bool (b : Bool)
  | self
  deriving DecidableEq

/-- Control point of a call. -/
inductive Pc where
  /-- In `Start`, before `if cmd.Exited()`. -/
  | startCheck
  /-- In `Start`, before `cmd.Lock()`. -/
  | startLock
  /-- In `Wait`, before the `go` statement. -/
  | waitGo
  /-- In `Wait`, at `<-cmd.waitSem`. -/
  | waitRecv
  /-- In `Wait`, evaluating the operand of `return cmd.waitErr`. -/
  | waitRead
  /-- In `Wait`, in the deferred `cmd.waitSem <- struct{}{}`, about to return `e`. -/
  | waitDefer (e : Error)
  /-- In `WithOutput`, `WithInput`, `ExitCode` or `Exited`, before the critical section. -/
  | call
  /-- The call has returned `r`. -/
  | done (r : Ret)
  deriving DecidableEq

/-- Control point of the goroutine launched by `Wait`. -/
inductive Bg where
  /-- Not launched. -/
  | idle
  /-- At `cmd.wait.Do`. -/
  | atOnce
  /-- Inside the once function, at `cmd.cmd.Wait()`. -/
  | inWait
  /-- Inside the once function, before `cmd.Lock(); cmd.waitErr = err`. -/
  | record (e : Error)
  /-- The once function has returned; `Do` is about to mark the once done. -/
  | leave
  /-- At `cmd.waitSem <- struct{}{}`. -/
  | send
  /-- Finished. -/
  | finished
  deriving DecidableEq

/-- A client call: the method, its control point, the local `err` of `Run`
(unset until its `Start` has returned), and the goroutine its `Wait` launched. -/
structure Thread where
  op : Op
  pc : Pc
  err : Option Error
  go : Bg
  deriving DecidableEq

/-- The handle, the calls in flight, and the history of results of the
underlying `Start` and `Wait` invocations (oldest first). -/
structure Sys where
  h : Cmd
  th : List Thread
  startCalls : List Error
  waitCalls : List Error
  deriving DecidableEq

/-- First control point of a call of `op`. -/
def Op.entry : Op → Pc
  | .start => .startCheck
  | .run => .startCheck
  | .wait => .waitGo
  | _ => .call

/-- A call of `op` that has not begun. -/
def Thread.new (op : Op) : Thread :=
  { op := op, pc := op.entry, err := none, go := .idle }

/-- The handle `New(cmd)` and one pending call per element of `ops`. -/
def init (cmd : ExecCmd) (ops : List Op) : Sys :=
  { h := New cmd, th := ops.map Thread.new, startCalls := [], waitCalls := [] }

/-- One action of `Cmd.Start` by call `t`. -/
def Start (P : Prim) (s : Sys) (t : Thread) : Option (Sys × Thread) :=
  match t.pc with
  | .startCheck =>
    if s.h.Exited then some (s, { t with pc := .done (.err (some "command already exitted")) })
    else some (s, { t with pc := .startLock })
  | .startLock =>
    match s.h.start with
    | .fresh =>
      let r := P.Start s.h.cmd
      some ({ s with h := { s.h with start := .done, cmd := r.1, startErr := r.2 },
                     startCalls := s.startCalls ++ [r.2] },
            { t with pc := .done (.err r.2) })
    | .running => none
    | .done => some (s, { t with pc := .done (.err s.h.startErr) })
  | _ => none

/-- One action of `Cmd.Wait` by call `t` (the caller's side). -/
def Wait (s : Sys) (t : Thread) : Option (Sys × Thread) :=
  match t.pc with
  | .waitGo => some (s, { t with pc := .waitRecv, go := .atOnce })
  | .waitRecv =>
    if 0 < s.h.waitSem then
      some ({ s with h := { s.h with waitSem := s.h.waitSem - 1 } }, { t with pc := .waitRead })
    else none
  | .waitRead => some (s, { t with pc := .waitDefer s.h.waitErr })
  | .waitDefer e =>
    if s.h.waitSem < waitSemCap then
      some ({ s with h := { s.h with waitSem := s.h.waitSem + 1 } }, { t with pc := .done (.err e) })
    else none
  | _ => none

/-- One action of the goroutine launched by the `Wait` of call `t`. -/
def waitGoroutine (P : Prim) (s : Sys) (t : Thread) : Option (Sys × Thread) :=
  match t.go with
  | .atOnce =>
    match s.h.wait with
    | .fresh => some ({ s with h := { s.h with wait := .running } }, { t with go := .inWait })
    | .running => none
    | .done => some (s, { t with go := .send })
  | .inWait =>
    match P.Wait s.h.cmd with
    | none => none
    | some r =>
      some ({ s with h := { s.h with cmd := r.1 }, waitCalls := s.waitCalls ++ [r.2] },
            { t with go := .record r.2 })
  | .record e => some ({ s with h := { s.h with waitErr := e } }, { t with go := .leave })
  | .leave => some ({ s with h := { s.h with wait := .done } }, { t with go := .send })
  | .send =>
    if s.h.waitSem < waitSemCap then
      some ({ s with h := { s.h with waitSem := s.h.waitSem + 1 } }, { t with go := .finished })
    else none
  | _ => none

/-- The action of a call of `WithOutput`, `WithInput`, `ExitCode` or `Exited`. -/
def query (s : Sys) (t : Thread) : Option (Sys × Thread) :=
  match t.pc with
  | .call =>
    match t.op with
    | .exited => some (s, { t with pc := .done (.bool s.h.Exited) })
    | .exitCode => some (s, { t with pc := .done (.code s.h.ExitCode.1 s.h.ExitCode.2) })
    | .withOutput w => some ({ s with h := s.h.WithOutput w }, { t with pc := .done .self })
    | .withInput r => some ({ s with h := s.h.WithInput r }, { t with pc := .done .self })
    | _ => none
  | _ => none

/-- Continuation of `Run` after an action of its `Start`, in
`if err := cmd.Start(); err != nil { return err }; return cmd.Wait()`: when
`Start` has returned `e`, the local `err` is `e`; a non-nil `e` is returned
and a nil `e` enters `Wait`. -/
def Thread.afterStart (t : Thread) : Thread :=
  match t.pc with
  | .done (.err e) =>
    if e.isSome then { t with err := some e } else { t with err := some e, pc := .waitGo }
  | _ => t

/-- One action of `Cmd.Run` by call `t`: an action of `Start` until `Start`
has returned, an action of `Wait` afterwards. -/
def Run (P : Prim) (s : Sys) (t : Thread) : Option (Sys × Thread) :=
  match t.err with
  | none =>
    match Start P s t with
    | none => none
    | some r => some (r.1, r.2.afterStart)
  | some _ => Wait s t

/-- One action of call `t` itself (not of its goroutine). -/
def caller (P : Prim) (s : Sys) (t : Thread) : Option (Sys × Thread) :=
  match t.op with
  | .start => Start P s t
  | .run => Run P s t
  | .wait => Wait s t
  | _ => query s t

/-- One action of call `i`: of its goroutine when `g`, of the caller otherwise. -/
def step (P : Prim) (s : Sys) (i : Nat) (g : Bool) : Option Sys :=
  match s.th[i]? with
  | none => none
  | some t =>
    match (if g then waitGoroutine P s t else caller P s t) with
    | none => none
    | some r => some { r.1 with th := r.1.th.set i r.2 }

/-- States reachable from `s0` by interleaving the actions of all calls. -/
inductive Reach (P : Prim) (s0 : Sys) : Sys → Prop where
  | init : Reach P s0 s0
  | step {s s' : Sys} (i : Nat) (g : Bool) : Reach P s0 s → step P s i g = some s' → Reach P s0 s'

/-- Runs a schedule: the list of actions to take, in order. -/
def exec (P : Prim) (s : Sys) : List (Nat × Bool) → Option Sys
  | [] => some s
  | a :: rest =>
    match step P s a.1 a.2 with
    | none => none
    | some s' => exec P s' rest

/-- Modelled from the spec: the external process primitive (`os/exec` of the Go
standard library, not in the repository) for a process whose launch yields
`launch` and which terminates with state `final`.  `Start` fails on a command
already started or when the launch fails; `Wait` fails on a command never
started or already waited on, and otherwise publishes the process state and
fails exactly when the process did not exit with code 0. -/
def osExec (launch : Error) (final : ProcessState) : Prim where
  Start c :=
    if c.Process.isSome then (c, some "exec: already started")
    else if launch.isSome then (c, launch)
    else ({ c with Process := some 1 }, none)
  Wait c :=
    if c.Process.isNone then some (c, some "exec: not started")
    else if c.ProcessState.isSome then some (c, some "exec: Wait was already called")
    else some ({ c with ProcessState := some final },
               if final.exited && final.exitCode == 0 then none else some "exit status")

/-! ## Invariants and scenarios -/

/-- The goroutine is inside the function guarded by the `wait` once. -/
def Bg.inOnce : Bg → Bool
  | .inWait => true
  | .record _ => true
  | .leave => true
  | _ => false

/-- What the control point of a goroutine implies about the `wait` once `w`,
the history `calls` of the underlying waits and the recorded error `we`. -/
def goInv (w : Once) (calls : List Error) (we : Error) : Bg → Prop
  | .inWait => w = .running ∧ calls = []
  | .record e => w = .running ∧ calls = [e]
  | .leave => w = .running ∧ calls = [we]
  | .send => w = .done
  | .finished => w = .done
  | _ => True

/-- The call is executing `Wait`: directly, or from `Run` after a `Start`
that returned nil. -/
def Thread.inWaitCall (t : Thread) : Prop :=
  (t.op = .wait ∧ t.err = none) ∨ (t.op = .run ∧ t.err = some none)

/-- What the control point of a call implies. -/
def pcInv (w : Once) (we : Error) (t : Thread) : Prop :=
  match t.pc with
  | .startCheck => t.go = .idle ∧ t.err = none ∧ t.op ≠ .wait
  | .startLock => t.go = .idle ∧ t.err = none ∧ t.op ≠ .wait
  | .call => t.go = .idle ∧ t.op ≠ .wait ∧ t.op ≠ .run
  | .waitGo => t.go = .idle ∧ t.inWaitCall
  | .waitRecv => t.go ≠ .idle ∧ t.inWaitCall
  | .waitRead => t.go ≠ .idle ∧ t.inWaitCall ∧ w = .done
  | .waitDefer e => t.go ≠ .idle ∧ t.inWaitCall ∧ w = .done ∧ e = we
  | .done r =>
    (t.go = .idle → t.op ≠ .wait ∧ (t.op = .run → ∃ e, r = .err e ∧ e ≠ none ∧ t.err = some e)) ∧
    (t.go ≠ .idle → t.inWaitCall ∧ w = .done ∧ r = .err we)

/-- Invariant of one call. -/
def threadInv (w : Once) (calls : List Error) (we : Error) (t : Thread) : Prop :=
  goInv w calls we t.go ∧ pcInv w we t

/-- Invariant of the system on the `Wait` side. -/
structure WaitInv (s : Sys) : Prop where
  fresh : s.h.wait = .fresh → s.waitCalls = [] ∧ s.h.waitSem = 0
  running : s.h.wait = .running → s.h.waitSem = 0 ∧ s.waitCalls.length ≤ 1
  done : s.h.wait = .done → s.waitCalls = [s.h.waitErr]
  sem : s.h.waitSem ≤ waitSemCap
  uniq : ∀ (i j : Nat) (ti tj : Thread), s.th[i]? = some ti → s.th[j]? = some tj →
    ti.go.inOnce = true → tj.go.inOnce = true → i = j
  thread : ∀ (i : Nat) (t : Thread), s.th[i]? = some t → threadInv s.h.wait s.waitCalls s.h.waitErr t

/-- The command `echo ok` of the tests. -/
def echo : ExecCmd := execCommand "echo" ["ok"]

/-- A process that launches and exits with code 0. -/
def osOk : Prim := osExec none ⟨0, true⟩

/-- A process that launches and is terminated by a signal. -/
def osSig : Prim := osExec none ⟨-1, false⟩

/-- A process that cannot be launched. -/
def osNoLaunch : Prim := osExec (some "fork/exec: no such file or directory") ⟨0, true⟩

/-- Schedule in which call `i` executes `Wait` alone: it launches its goroutine,
the goroutine runs to completion, then the caller receives, reads and
replenishes. -/
def waitSched (i : Nat) : List (Nat × Bool) :=
  [(i, false), (i, true), (i, true), (i, true), (i, true), (i, true),
   (i, false), (i, false), (i, false)]

/-- Schedule in which call `i` executes `Run` alone. -/
def runSched (i : Nat) : List (Nat × Bool) :=
  (i, false) :: (i, false) :: waitSched i

/-- The command `echo` after a successful start. -/
def echoStarted : ExecCmd := { echo with Process := some 1 }

/-- The command `echo` after it was started and waited on, ending in state `ps`. -/
def echoDone (ps : ProcessState) : ExecCmd := { echoStarted with ProcessState := some ps }

/-- The handle after a successful start and a completed wait that returned `e`. -/
def handleDone (ps : ProcessState) (e : Error) : Cmd :=
  { start := .done, wait := .done, waitSem := 1, cmd := echoDone ps, startErr := none,
    waitErr := e }

/-- State after `Start`, then two concurrent `Wait`s on a process exiting with code 0:
the second caller is at its deferred send and the channel is full. -/
def stuck : Sys :=
  { h := handleDone ⟨0, true⟩ none,
    th := [⟨.start, .done (.err none), none, .idle⟩,
           ⟨.wait, .done (.err none), none, .finished⟩,
           ⟨.wait, .waitDefer none, none, .finished⟩],
    startCalls := [none], waitCalls := [none] }

/-- Schedule leading to `stuck`: the first goroutine completes the wait and
sends, the first caller receives, the second goroutine sends, the second
caller receives, the first caller replenishes and returns. -/
def stuckSched : List (Nat × Bool) :=
  [(0, false), (0, false),
   (1, false), (1, true), (1, true), (1, true), (1, true), (1, true), (1, false),
   (2, false), (2, true), (2, true), (2, false), (2, false),
   (1, false), (1, false)]

/-- A single `Wait` on a handle that was never started. -/
def neverStarted : Sys :=
  { h := { New echo with wait := .done, waitSem := 1, waitErr := some "exec: not started" },
    th := [⟨.wait, .done (.err (some "exec: not started")), none, .finished⟩],
    startCalls := [], waitCalls := [some "exec: not started"] }

/-- State after `Run` on a process terminated by a signal, then `Exited`. -/
def afterSignal : Sys :=
  { h := handleDone ⟨-1, false⟩ (some "exit status"),
    th := [⟨.run, .done (.err (some "exit status")), some none, .finished⟩,
           ⟨.exited, .done (.bool false), none, .idle⟩],
    startCalls := [none], waitCalls := [some "exit status"] }

/-- State after `Run` to completion on a process exiting with code 0, with a `Start` pending. -/
def afterRun : Sys :=
  { h := handleDone ⟨0, true⟩ none,
    th := [⟨.run, .done (.err none), some none, .finished⟩, ⟨.start, .startCheck, none, .idle⟩],
    startCalls := [none], waitCalls := [none] }

/-- State after `Run` on a process that cannot be launched. -/
def runNoLaunch : Sys :=
  { h := { New echo with start := .done, startErr := some "fork/exec: no such file or directory" },
    th := [⟨.run, .done (.err (some "fork/exec: no such file or directory")),
            some (some "fork/exec: no such file or directory"), .idle⟩],
    startCalls := [some "fork/exec: no such file or directory"], waitCalls := [] }

/-- State after `Start` and a first complete `Wait` on a process exiting with
code 0, with a second `Wait` not yet called. -/
def firstWaitDone : Sys :=
  { h := handleDone ⟨0, true⟩ none,
    th := [⟨.start, .done (.err none), none, .idle⟩,
           ⟨.wait, .done (.err none), none, .finished⟩,
           Thread.new .wait],
    startCalls := [none], waitCalls := [none] }

/-- Schedule of a second `Wait` called after the first has returned: its
goroutine reaches its send on the full channel, the caller receives, the
goroutine's send completes, the caller reads `waitErr`. -/
def secondWaitSched : List (Nat × Bool) :=
  [(2, false), (2, true), (2, false), (2, true), (2, false)]

/-! ## Theorems -/

theorem threadInv_new (op : Op) : threadInv .fresh [] none (Thread.new op) := by
  cases op <;> simp [threadInv, goInv, pcInv, Thread.new, Op.entry, Thread.inWaitCall]

theorem getElem?_init {c : ExecCmd} {ops : List Op} {i : Nat} {t : Thread}
    (h : (init c ops).th[i]? = some t) : ∃ op, t = Thread.new op := by
  simp only [init, List.getElem?_map, Option.map_eq_some'] at h
  obtain ⟨op, -, rfl⟩ := h
  exact ⟨op, rfl⟩

theorem waitInv_init (c : ExecCmd) (ops : List Op) : WaitInv (init c ops) := by
  refine ⟨?_, ?_, ?_, ?_, ?_, ?_⟩
  · intro _; exact ⟨rfl, rfl⟩
  · intro _; exact ⟨rfl, Nat.zero_le _⟩
  · intro h; simp [init, New] at h
  · simp [init, New]
  · intro i j ti tj hi _ hti
    obtain ⟨op, rfl⟩ := getElem?_init hi
    simp [Thread.new, Bg.inOnce] at hti
  · intro i t hi
    obtain ⟨op, rfl⟩ := getElem?_init hi
    exact threadInv_new op

/-- Outside the once function nothing depends on the shared wait state while
the once is fresh or running. -/
theorem threadInv_of_not_done {w : Once} {calls : List Error} {we : Error} {t : Thread}
    (h : threadInv w calls we t) (hw : w ≠ .done) (hg : t.go.inOnce = false)
    (w' : Once) (calls' : List Error) (we' : Error) : threadInv w' calls' we' t := by
  obtain ⟨hgo, hpc⟩ := h
  constructor
  · cases hb : t.go <;> simp_all [goInv, Bg.inOnce]
  · unfold pcInv at *
    cases hp : t.pc <;> simp_all

theorem not_inOnce_of_fresh {calls : List Error} {we : Error} {t : Thread}
    (h : threadInv .fresh calls we t) : t.go.inOnce = false := by
  obtain ⟨hgo, -⟩ := h
  cases hb : t.go <;> simp_all [goInv, Bg.inOnce]

theorem getElem?_set_cases {l : List Thread} {i j : Nat} {t' t : Thread}
    (h : (l.set i t')[j]? = some t) : (j = i ∧ t = t') ∨ (j ≠ i ∧ l[j]? = some t) := by
  by_cases hji : j = i
  · subst hji
    rw [List.getElem?_set_self'] at h
    cases hl : l[j]? with
    | none => simp [hl] at h
    | some a =>
      simp [hl] at h
      exact Or.inl ⟨rfl, h.symm⟩
  · rw [List.getElem?_set_ne (Ne.symm hji)] at h
    exact Or.inr ⟨hji, h⟩

/-- Re-establishes the invariant after call `i` moved from `t` to `t'`. -/
theorem waitInv_update {s s' : Sys} {i : Nat} {u : Thread}
    (hth : s'.th = s.th.set i u)
    (hfresh : s'.h.wait = .fresh → s'.waitCalls = [] ∧ s'.h.waitSem = 0)
    (hrunning : s'.h.wait = .running → s'.h.waitSem = 0 ∧ s'.waitCalls.length ≤ 1)
    (hdone : s'.h.wait = .done → s'.waitCalls = [s'.h.waitErr])
    (hsem : s'.h.waitSem ≤ waitSemCap)
    (huniq : u.go.inOnce = true → ∀ (j : Nat) (tj : Thread), j ≠ i → s.th[j]? = some tj →
      tj.go.inOnce = false)
    (hold : ∀ (j k : Nat) (tj tk : Thread), j ≠ i → k ≠ i → s.th[j]? = some tj →
      s.th[k]? = some tk → tj.go.inOnce = true → tk.go.inOnce = true → j = k)
    (hnew : threadInv s'.h.wait s'.waitCalls s'.h.waitErr u)
    (hothers : ∀ (j : Nat) (tj : Thread), j ≠ i → s.th[j]? = some tj →
      threadInv s'.h.wait s'.waitCalls s'.h.waitErr tj) : WaitInv s' := by
  refine ⟨hfresh, hrunning, hdone, hsem, ?_, ?_⟩
  · intro j k tj tk hj hk hgj hgk
    rw [hth] at hj hk
    rcases getElem?_set_cases hj with ⟨rfl, rfl⟩ | ⟨hji, hj'⟩
    · rcases getElem?_set_cases hk with ⟨rfl, -⟩ | ⟨hki, hk'⟩
      · rfl
      · have := huniq hgj k tk hki hk'
        simp [this] at hgk
    · rcases getElem?_set_cases hk with ⟨rfl, rfl⟩ | ⟨hki, hk'⟩
      · have := huniq hgk j tj hji hj'
        simp [this] at hgj
      · exact hold j k tj tk hji hki hj' hk' hgj hgk
  · intro j tj hj
    rw [hth] at hj
    rcases getElem?_set_cases hj with ⟨rfl, rfl⟩ | ⟨hji, hj'⟩
    · exact hnew
    · exact hothers j tj hji hj'

theorem waitInv_hold {s : Sys} (hI : WaitInv s) (i : Nat) :
    ∀ (j k : Nat) (tj tk : Thread), j ≠ i → k ≠ i → s.th[j]? = some tj →
      s.th[k]? = some tk → tj.go.inOnce = true → tk.go.inOnce = true → j = k :=
  fun j k tj tk _ _ hj hk hgj hgk => hI.uniq j k tj tk hj hk hgj hgk

/-- While call `i` is inside the once function no other call is. -/
theorem waitInv_others_out {s : Sys} (hI : WaitInv s) {i : Nat} {t : Thread}
    (hi : s.th[i]? = some t) (hg : t.go.inOnce = true) :
    ∀ (j : Nat) (tj : Thread), j ≠ i → s.th[j]? = some tj → tj.go.inOnce = false := by
  intro j tj hji hj
  cases hb : tj.go.inOnce with
  | false => rfl
  | true => exact absurd (hI.uniq j i tj t hj hi hb hg) hji

/-- While the once is fresh no call is inside the once function. -/
theorem waitInv_fresh_out {s : Sys} (hI : WaitInv s) (hw : s.h.wait = .fresh) :
    ∀ (j : Nat) (tj : Thread), s.th[j]? = some tj → tj.go.inOnce = false := by
  intro j tj hj
  have := hI.thread j tj hj
  rw [hw] at this
  exact not_inOnce_of_fresh this

theorem waitInv_waitGoroutine {P : Prim} {s : Sys} {i : Nat} {t : Thread} {r : Sys × Thread}
    (hI : WaitInv s) (hi : s.th[i]? = some t) (hs : waitGoroutine P s t = some r) :
    WaitInv { r.1 with th := r.1.th.set i r.2 } := by
  have ht := hI.thread i t hi
  obtain ⟨hgo, hpc⟩ := ht
  unfold waitGoroutine at hs
  cases hb : t.go with
  | idle => simp [hb] at hs
  | finished => simp [hb] at hs
  | atOnce =>
    rw [hb] at hs
    cases hw : s.h.wait with
    | running => simp [hw] at hs
    | fresh =>
      simp only [hw, Option.some.injEq] at hs
      subst hs
      obtain ⟨hc, hsem⟩ := hI.fresh hw
      refine waitInv_update (s := s) rfl ?_ ?_ ?_ ?_ ?_ (waitInv_hold hI i) ?_ ?_
      · simp
      · intro _; exact ⟨hsem, by simp [hc]⟩
      · simp
      · simp [hsem]
      · intro _ j tj _ hj; exact waitInv_fresh_out hI hw j tj hj
      · refine ⟨by simp [goInv, hc], ?_⟩
        rw [hw] at hpc
        unfold pcInv at *
        cases hp : t.pc <;> simp_all [Thread.inWaitCall]
      · intro j tj _ hj
        have h1 := hI.thread j tj hj
        exact threadInv_of_not_done h1 (by simp [hw]) (waitInv_fresh_out hI hw j tj hj) _ _ _
    | done =>
      simp only [hw, Option.some.injEq] at hs
      subst hs
      refine waitInv_update (s := s) rfl hI.fresh hI.running hI.done hI.sem ?_
        (waitInv_hold hI i) ?_ ?_
      · simp [Bg.inOnce]
      · refine ⟨by simp [goInv, hw], ?_⟩
        unfold pcInv at *
        cases hp : t.pc <;> simp_all [Thread.inWaitCall]
      · intro j tj _ hj; exact hI.thread j tj hj
  | inWait =>
    rw [hb] at hs hgo
    obtain ⟨hw, hc⟩ := hgo
    have hin : t.go.inOnce = true := by simp [hb, Bg.inOnce]
    cases hp : P.Wait s.h.cmd with
    | none => simp [hp] at hs
    | some x =>
      simp only [hp, Option.some.injEq] at hs
      subst hs
      refine waitInv_update (s := s) rfl ?_ ?_ ?_ hI.sem ?_ (waitInv_hold hI i) ?_ ?_
      · simp [hw]
      · intro _; exact ⟨(hI.running hw).1, by simp [hc]⟩
      · simp [hw]
      · intro _; exact waitInv_others_out hI hi hin
      · refine ⟨by simp [goInv, hw, hc], ?_⟩
        unfold pcInv at *
        cases hp : t.pc <;> simp_all [Thread.inWaitCall]
      · intro j tj hji hj
        exact threadInv_of_not_done (hI.thread j tj hj) (by simp [hw])
          (waitInv_others_out hI hi hin j tj hji hj) _ _ _
  | record e =>
    rw [hb] at hs hgo
    obtain ⟨hw, hc⟩ := hgo
    have hin : t.go.inOnce = true := by simp [hb, Bg.inOnce]
    simp only [Option.some.injEq] at hs
    subst hs
    refine waitInv_update (s := s) rfl ?_ ?_ ?_ hI.sem ?_ (waitInv_hold hI i) ?_ ?_
    · simp [hw]
    · intro _; exact hI.running hw
    · simp [hw]
    · intro _; exact waitInv_others_out hI hi hin
    · refine ⟨by simp [goInv, hw, hc], ?_⟩
      unfold pcInv at *
      cases hp : t.pc <;> simp_all [Thread.inWaitCall]
    · intro j tj hji hj
      exact threadInv_of_not_done (hI.thread j tj hj) (by simp [hw])
        (waitInv_others_out hI hi hin j tj hji hj) _ _ _
  | leave =>
    rw [hb] at hs hgo
    obtain ⟨hw, hc⟩ := hgo
    have hin : t.go.inOnce = true := by simp [hb, Bg.inOnce]
    simp only [Option.some.injEq] at hs
    subst hs
    refine waitInv_update (s := s) rfl ?_ ?_ ?_ hI.sem ?_ (waitInv_hold hI i) ?_ ?_
    · simp
    · simp
    · intro _; exact hc
    · simp [Bg.inOnce]
    · refine ⟨by simp [goInv], ?_⟩
      unfold pcInv at *
      cases hp : t.pc <;> simp_all [Thread.inWaitCall]
    · intro j tj hji hj
      exact threadInv_of_not_done (hI.thread j tj hj) (by simp [hw])
        (waitInv_others_out hI hi hin j tj hji hj) _ _ _
  | send =>
    rw [hb] at hs hgo
    change s.h.wait = .done at hgo
    by_cases hc : s.h.waitSem < waitSemCap
    · simp only [hc, if_true, Option.some.injEq] at hs
      subst hs
      refine waitInv_update (s := s) rfl ?_ ?_ hI.done ?_ ?_ (waitInv_hold hI i) ?_ ?_
      · simp [hgo]
      · simp [hgo]
      · simp only [waitSemCap] at hc ⊢; omega
      · simp [Bg.inOnce]
      · refine ⟨by simp [goInv, hgo], ?_⟩
        unfold pcInv at *
        cases hp : t.pc <;> simp_all [Thread.inWaitCall]
      · intro j tj _ hj; exact hI.thread j tj hj
    · simp [hc] at hs

theorem step_some {P : Prim} {s s' : Sys} {i : Nat} {g : Bool} (h : step P s i g = some s') :
    ∃ t r, s.th[i]? = some t ∧ (if g = true then waitGoroutine P s t else caller P s t) = some r ∧
      s' = { r.1 with th := r.1.th.set i r.2 } := by
  unfold step at h
  cases hi : s.th[i]? with
  | none => simp [hi] at h
  | some t =>
    simp only [hi] at h
    cases hr : (if g = true then waitGoroutine P s t else caller P s t) with
    | none => simp [hr] at h
    | some r =>
      simp only [hr, Option.some.injEq] at h
      exact ⟨t, r, rfl, hr, h.symm⟩

/-- Re-establishes the invariant after an action of call `i` that left the
wait side of the handle unchanged and launched no goroutine. -/
theorem waitInv_frame {s s' : Sys} {i : Nat} {u : Thread} (hI : WaitInv s)
    (h1 : s'.h.wait = s.h.wait) (h2 : s'.h.waitSem = s.h.waitSem)
    (h3 : s'.h.waitErr = s.h.waitErr) (h4 : s'.waitCalls = s.waitCalls) (h5 : s'.th = s.th)
    (hg : u.go = .idle) (hpc : pcInv s.h.wait s.h.waitErr u) :
    WaitInv { s' with th := s'.th.set i u } := by
  refine waitInv_update (s := s) (u := u) (by simp [h5]) ?_ ?_ ?_ ?_ ?_ (waitInv_hold hI i) ?_ ?_
  · simpa [h1, h2, h4] using hI.fresh
  · simpa [h1, h2, h4] using hI.running
  · simpa [h1, h3, h4] using hI.done
  · simpa [h2] using hI.sem
  · rw [hg]; simp [Bg.inOnce]
  · refine ⟨?_, by simpa [h1, h3] using hpc⟩
    rw [hg]; simp [goInv]
  · intro j tj _ hj
    simpa [h1, h3, h4] using hI.thread j tj hj

/-- Shape of an action of `Start`: it leaves the wait side of the handle
unchanged, and the call either moves on to the critical section or returns. -/
theorem Start_some {P : Prim} {s : Sys} {t : Thread} {r : Sys × Thread}
    (h : Start P s t = some r) :
    (r.1.h.wait = s.h.wait ∧ r.1.h.waitSem = s.h.waitSem ∧ r.1.h.waitErr = s.h.waitErr ∧
      r.1.waitCalls = s.waitCalls ∧ r.1.th = s.th) ∧
    (t.pc = .startCheck ∨ t.pc = .startLock) ∧
    (r.2 = { t with pc := .startLock } ∨ ∃ e : Error, r.2 = { t with pc := .done (.err e) }) := by
  unfold Start at h
  cases hp : t.pc with
  | startCheck =>
    rw [hp] at h
    by_cases hx : s.h.Exited = true
    · simp only [hx, if_true, Option.some.injEq] at h
      subst h
      exact ⟨⟨rfl, rfl, rfl, rfl, rfl⟩, Or.inl rfl, Or.inr ⟨_, rfl⟩⟩
    · simp only [hx, Bool.false_eq_true, if_false, Option.some.injEq] at h
      subst h
      exact ⟨⟨rfl, rfl, rfl, rfl, rfl⟩, Or.inl rfl, Or.inl rfl⟩
  | startLock =>
    rw [hp] at h
    cases hst : s.h.start with
    | running => simp [hst] at h
    | fresh =>
      simp only [hst, Option.some.injEq] at h
      subst h
      exact ⟨⟨rfl, rfl, rfl, rfl, rfl⟩, Or.inr rfl, Or.inr ⟨_, rfl⟩⟩
    | done =>
      simp only [hst, Option.some.injEq] at h
      subst h
      exact ⟨⟨rfl, rfl, rfl, rfl, rfl⟩, Or.inr rfl, Or.inr ⟨_, rfl⟩⟩
  | waitGo => simp [hp] at h
  | waitRecv => simp [hp] at h
  | waitRead => simp [hp] at h
  | waitDefer e => simp [hp] at h
  | call => simp [hp] at h
  | done r => simp [hp] at h

theorem waitInv_Start {P : Prim} {s : Sys} {i : Nat} {t : Thread} {r : Sys × Thread}
    (hI : WaitInv s) (hi : s.th[i]? = some t) (hop : t.op = .start)
    (hs : Start P s t = some r) : WaitInv { r.1 with th := r.1.th.set i r.2 } := by
  obtain ⟨-, hpc⟩ := hI.thread i t hi
  obtain ⟨⟨h1, h2, h3, h4, h5⟩, hp, hr⟩ := Start_some hs
  have hg : t.go = .idle ∧ t.err = none := by
    unfold pcInv at hpc
    rcases hp with hp | hp <;> simp [hp] at hpc <;> exact ⟨hpc.1, hpc.2.1⟩
  rcases hr with hr | ⟨e, hr⟩
  · rw [hr]
    exact waitInv_frame hI h1 h2 h3 h4 h5 hg.1 (by simp [pcInv, hg, hop])
  · rw [hr]
    exact waitInv_frame hI h1 h2 h3 h4 h5 hg.1 (by simp [pcInv, hg, hop])

theorem waitInv_Wait {s : Sys} {i : Nat} {t : Thread} {r : Sys × Thread}
    (hI : WaitInv s) (hi : s.th[i]? = some t) (hs : Wait s t = some r) :
    WaitInv { r.1 with th := r.1.th.set i r.2 } := by
  obtain ⟨hgo, hpc⟩ := hI.thread i t hi
  unfold Wait at hs
  cases hp : t.pc with
  | startCheck => simp [hp] at hs
  | startLock => simp [hp] at hs
  | call => simp [hp] at hs
  | done r => simp [hp] at hs
  | waitGo =>
    simp only [hp, Option.some.injEq] at hs
    subst hs
    simp only [pcInv, hp] at hpc
    refine waitInv_update (s := s) rfl hI.fresh hI.running hI.done hI.sem ?_
      (waitInv_hold hI i) ?_ ?_
    · simp [Bg.inOnce]
    · refine ⟨by simp [goInv], ?_⟩
      simpa [pcInv, Thread.inWaitCall] using hpc.2
    · intro j tj _ hj; exact hI.thread j tj hj
  | waitRecv =>
    rw [hp] at hs
    simp only [pcInv, hp] at hpc
    by_cases hc : 0 < s.h.waitSem
    · simp only [hc, if_true, Option.some.injEq] at hs
      subst hs
      have hw : s.h.wait = .done := by
        cases hw : s.h.wait with
        | fresh => have := (hI.fresh hw).2; omega
        | running => have := hI.running hw; omega
        | done => rfl
      have hle := hI.sem
      refine waitInv_update (s := s) rfl ?_ ?_ hI.done ?_ ?_ (waitInv_hold hI i) ?_ ?_
      · simp [hw]
      · simp [hw]
      · simp only [waitSemCap] at hle ⊢; omega
      · intro h; exact absurd h (by cases hb : t.go <;> simp_all [goInv, Bg.inOnce])
      · refine ⟨by simpa using hgo, ?_⟩
        simpa [pcInv, Thread.inWaitCall, hw] using hpc
      · intro j tj _ hj; exact hI.thread j tj hj
    · simp [hc] at hs
  | waitRead =>
    simp only [hp, Option.some.injEq] at hs
    subst hs
    simp only [pcInv, hp] at hpc
    refine waitInv_update (s := s) rfl hI.fresh hI.running hI.done hI.sem ?_
      (waitInv_hold hI i) ?_ ?_
    · intro h; exact absurd h (by cases hb : t.go <;> simp_all [goInv, Bg.inOnce])
    · refine ⟨by simpa using hgo, ?_⟩
      simpa [pcInv, Thread.inWaitCall] using hpc
    · intro j tj _ hj; exact hI.thread j tj hj
  | waitDefer e =>
    rw [hp] at hs
    simp only [pcInv, hp] at hpc
    by_cases hc : s.h.waitSem < waitSemCap
    · simp only [hc, if_true, Option.some.injEq] at hs
      subst hs
      refine waitInv_update (s := s) rfl ?_ ?_ hI.done ?_ ?_ (waitInv_hold hI i) ?_ ?_
      · simp [hpc.2.2.1]
      · simp [hpc.2.2.1]
      · simp only [waitSemCap] at hc ⊢; omega
      · intro h; exact absurd h (by cases hb : t.go <;> simp_all [goInv, Bg.inOnce])
      · refine ⟨by simpa using hgo, ?_⟩
        simp only [pcInv]
        exact ⟨fun h => absurd h hpc.1, fun _ => ⟨hpc.2.1, hpc.2.2.1, by rw [hpc.2.2.2]⟩⟩
      · intro j tj _ hj; exact hI.thread j tj hj
    · simp [hc] at hs

theorem waitInv_Run {P : Prim} {s : Sys} {i : Nat} {t : Thread} {r : Sys × Thread}
    (hI : WaitInv s) (hi : s.th[i]? = some t) (hop : t.op = .run)
    (hs : Run P s t = some r) : WaitInv { r.1 with th := r.1.th.set i r.2 } := by
  unfold Run at hs
  cases he : t.err with
  | some e =>
    simp only [he] at hs
    exact waitInv_Wait hI hi hs
  | none =>
    simp only [he] at hs
    cases h0 : Start P s t with
    | none => simp [h0] at hs
    | some r0 =>
      simp only [h0, Option.some.injEq] at hs
      subst hs
      obtain ⟨-, hpc⟩ := hI.thread i t hi
      obtain ⟨⟨h1, h2, h3, h4, h5⟩, hp, hr⟩ := Start_some h0
      have hg : t.go = .idle := by
        unfold pcInv at hpc
        rcases hp with hp | hp <;> simp [hp] at hpc <;> exact hpc.1
      rcases hr with hr | ⟨e, hr⟩
      · rw [hr]
        exact waitInv_frame hI h1 h2 h3 h4 h5 (by simp [Thread.afterStart, hg])
          (by simp [pcInv, Thread.afterStart, hg, he, hop])
      · rw [hr]
        cases e with
        | none =>
          exact waitInv_frame hI h1 h2 h3 h4 h5 (by simp [Thread.afterStart, hg])
            (by simp [pcInv, Thread.afterStart, hg, hop, Thread.inWaitCall])
        | some m =>
          exact waitInv_frame hI h1 h2 h3 h4 h5 (by simp [Thread.afterStart, hg])
            (by simp [pcInv, Thread.afterStart, hg, hop])

theorem waitInv_query {s : Sys} {i : Nat} {t : Thread} {r : Sys × Thread}
    (hI : WaitInv s) (hi : s.th[i]? = some t) (hs : query s t = some r) :
    WaitInv { r.1 with th := r.1.th.set i r.2 } := by
  obtain ⟨-, hpc⟩ := hI.thread i t hi
  unfold query at hs
  cases hp : t.pc with
  | call =>
    rw [hp] at hs
    simp only [pcInv, hp] at hpc
    cases ho : t.op <;> simp only [ho, Option.some.injEq] at hs <;> try (exact absurd hs (by simp))
    all_goals
      subst hs
      exact waitInv_frame hI rfl rfl rfl rfl rfl hpc.1 (by simp [pcInv, hpc.1, ho])
  | startCheck => simp [hp] at hs
  | startLock => simp [hp] at hs
  | waitGo => simp [hp] at hs
  | waitRecv => simp [hp] at hs
  | waitRead => simp [hp] at hs
  | waitDefer e => simp [hp] at hs
  | done r => simp [hp] at hs

theorem waitInv_step {P : Prim} {s s' : Sys} {i : Nat} {g : Bool}
    (hI : WaitInv s) (hs : step P s i g = some s') : WaitInv s' := by
  obtain ⟨t, r, hi, hr, rfl⟩ := step_some hs
  cases g with
  | true =>
    simp only [if_true] at hr
    exact waitInv_waitGoroutine hI hi hr
  | false =>
    simp only [Bool.false_eq_true, if_false] at hr
    unfold caller at hr
    cases ho : t.op with
    | start => rw [ho] at hr; exact waitInv_Start hI hi ho hr
    | run => rw [ho] at hr; exact waitInv_Run hI hi ho hr
    | wait => rw [ho] at hr; exact waitInv_Wait hI hi hr
    | exited => rw [ho] at hr; exact waitInv_query hI hi hr
    | exitCode => rw [ho] at hr; exact waitInv_query hI hi hr
    | withOutput w => rw [ho] at hr; exact waitInv_query hI hi hr
    | withInput w => rw [ho] at hr; exact waitInv_query hI hi hr

theorem waitInv_reach {P : Prim} {c : ExecCmd} {ops : List Op} {s : Sys}
    (hr : Reach P (init c ops) s) : WaitInv s := by
  induction hr with
  | init => exact waitInv_init c ops
  | step i g _ hs ih => exact waitInv_step ih hs

theorem reach_exec {P : Prim} {s0 s s' : Sys} (sched : List (Nat × Bool))
    (hr : Reach P s0 s) (he : exec P s sched = some s') : Reach P s0 s' := by
  induction sched generalizing s with
  | nil =>
    simp only [exec, Option.some.injEq] at he
    exact he ▸ hr
  | cons a rest ih =>
    simp only [exec] at he
    cases hs : step P s a.1 a.2 with
    | none => simp [hs] at he
    | some s1 =>
      simp only [hs] at he
      exact ih (Reach.step a.1 a.2 hr hs) he

/-- Shape of an action of `Start`, on the start side. -/
theorem Start_cases {P : Prim} {s : Sys} {t : Thread} {r : Sys × Thread}
    (h : Start P s t = some r) :
    (t.pc = .startCheck ∧ r.1 = s ∧
      (r.2 = { t with pc := .startLock } ∨
       r.2 = { t with pc := .done (.err (some "command already exitted")) })) ∨
    (t.pc = .startLock ∧ s.h.start = .fresh ∧
      r.1 = { s with h := { s.h with start := .done, cmd := (P.Start s.h.cmd).1,
                                      startErr := (P.Start s.h.cmd).2 },
                     startCalls := s.startCalls ++ [(P.Start s.h.cmd).2] } ∧
      r.2 = { t with pc := .done (.err (P.Start s.h.cmd).2) }) ∨
    (t.pc = .startLock ∧ s.h.start = .done ∧ r.1 = s ∧
      r.2 = { t with pc := .done (.err s.h.startErr) }) := by
  unfold Start at h
  cases hp : t.pc with
  | startCheck =>
    rw [hp] at h
    by_cases hx : s.h.Exited = true
    · simp only [hx, if_true, Option.some.injEq] at h
      subst h
      exact Or.inl ⟨rfl, rfl, Or.inr rfl⟩
    · simp only [hx, Bool.false_eq_true, if_false, Option.some.injEq] at h
      subst h
      exact Or.inl ⟨rfl, rfl, Or.inl rfl⟩
  | startLock =>
    rw [hp] at h
    cases hst : s.h.start with
    | running => simp [hst] at h
    | fresh =>
      simp only [hst, Option.some.injEq] at h
      subst h
      exact Or.inr (Or.inl ⟨rfl, rfl, rfl, rfl⟩)
    | done =>
      simp only [hst, Option.some.injEq] at h
      subst h
      exact Or.inr (Or.inr ⟨rfl, rfl, rfl, rfl⟩)
  | waitGo => simp [hp] at h
  | waitRecv => simp [hp] at h
  | waitRead => simp [hp] at h
  | waitDefer e => simp [hp] at h
  | call => simp [hp] at h
  | done r => simp [hp] at h

/-- A call that executes `Wait` and has returned did launch its goroutine. -/
theorem returned_wait_launched {t : Thread} {r : Ret} (hin : t.inWaitCall)
    (h : t.go = .idle → t.op ≠ .wait ∧
      (t.op = .run → ∃ e : Error, r = .err e ∧ e ≠ none ∧ t.err = some e)) :
    t.go ≠ .idle := by
  intro hg
  obtain ⟨h1, h2⟩ := h hg
  rcases hin with ⟨hop, -⟩ | ⟨hop, he⟩
  · exact h1 hop
  · obtain ⟨e, -, hne, he'⟩ := h2 hop
    rw [he] at he'
    exact hne (Option.some.inj he').symm

theorem reach_of_exec {P : Prim} {s0 s : Sys} (sched : List (Nat × Bool))
    (he : exec P s0 sched = some s) : Reach P s0 s :=
  reach_exec sched Reach.init he

/-- Safety of `Wait`: in every state reachable from a new handle by any
interleaving of any calls, the underlying `cmd.cmd.Wait()` has been invoked
at most once, and every call that executed `Wait` (directly, or from `Run`)
and has returned returned the result of that one invocation, which is the
recorded `waitErr`. -/
theorem wait_at_most_once (P : Prim) (c : ExecCmd) (ops : List Op) (s : Sys)
    (hr : Reach P (init c ops) s) :
    s.waitCalls.length ≤ 1 ∧
    ∀ (i : Nat) (t : Thread) (e : Error), s.th[i]? = some t → t.inWaitCall →
      t.pc = .done (.err e) → s.waitCalls = [e] ∧ s.h.waitErr = e := by
  have hI := waitInv_reach hr
  constructor
  · cases hw : s.h.wait with
    | fresh => simp [(hI.fresh hw).1]
    | running => exact (hI.running hw).2
    | done => simp [hI.done hw]
  · intro i t e hi hin hpc
    obtain ⟨-, h2⟩ := hI.thread i t hi
    simp only [pcInv, hpc] at h2
    have hg : t.go ≠ .idle := returned_wait_launched hin h2.1
    obtain ⟨-, hw, he⟩ := h2.2 hg
    simp only [Ret.err.injEq] at he
    exact ⟨by rw [hI.done hw, he], he.symm⟩

/-- C1 fails on returning: after a successful `Start` and a first `Wait` that
has returned nil, a second `Wait`, called afterwards, reaches a state in
which its caller is at its deferred send on the full channel and no call and
no goroutine can take any action: of the two calls made one after the other,
the second never returns. -/
theorem serial_waits_stuck :
    exec osOk (init echo [.start, .wait, .wait]) ([(0, false), (0, false)] ++ waitSched 1) =
      some firstWaitDone ∧
    firstWaitDone.th[1]? = some ⟨.wait, .done (.err none), none, .finished⟩ ∧
    firstWaitDone.th[2]? = some (Thread.new .wait) ∧
    exec osOk firstWaitDone secondWaitSched = some stuck ∧
    stuck.waitCalls = [none] ∧
    stuck.th[2]? = some ⟨.wait, .waitDefer none, none, .finished⟩ ∧
    ∀ (i : Nat) (g : Bool), step osOk stuck i g = none := by
  refine ⟨by decide, rfl, rfl, by decide, rfl, rfl, ?_⟩
  intro i g
  match i with
  | 0 => cases g <;> rfl
  | 1 => cases g <;> rfl
  | 2 => cases g <;> rfl
  | n + 3 => simp [step, stuck]

/-- C3: in every reachable state, an element is buffered in `waitSem` only if
the `wait` once is done and the result of the one underlying wait is recorded
in `waitErr`; a caller that has received is in such a state, and the value it
is about to return or has returned from `Wait` is that recorded result. -/
theorem signal_after_wait (P : Prim) (c : ExecCmd) (ops : List Op) (s : Sys)
    (hr : Reach P (init c ops) s) :
    (0 < s.h.waitSem → s.h.wait = .done ∧ s.waitCalls = [s.h.waitErr]) ∧
    ∀ (i : Nat) (t : Thread), s.th[i]? = some t →
      (t.pc = .waitRead → s.h.wait = .done ∧ s.waitCalls = [s.h.waitErr]) ∧
      (∀ e : Error, t.pc = .waitDefer e → s.h.wait = .done ∧ s.waitCalls = [e]) ∧
      (∀ e : Error, t.inWaitCall → t.pc = .done (.err e) →
        s.h.wait = .done ∧ s.waitCalls = [e]) := by
  have hI := waitInv_reach hr
  constructor
  · intro hpos
    have hw : s.h.wait = .done := by
      cases hw : s.h.wait with
      | fresh => have := (hI.fresh hw).2; omega
      | running => have := (hI.running hw).1; omega
      | done => rfl
    exact ⟨hw, hI.done hw⟩
  · intro i t hi
    obtain ⟨-, h2⟩ := hI.thread i t hi
    refine ⟨?_, ?_, ?_⟩
    · intro hpc
      simp only [pcInv, hpc] at h2
      exact ⟨h2.2.2, hI.done h2.2.2⟩
    · intro e hpc
      simp only [pcInv, hpc] at h2
      exact ⟨h2.2.2.1, by rw [hI.done h2.2.2.1, h2.2.2.2]⟩
    · intro e hin hpc
      simp only [pcInv, hpc] at h2
      have hg : t.go ≠ .idle := returned_wait_launched hin h2.1
      obtain ⟨-, hw, he⟩ := h2.2 hg
      simp only [Ret.err.injEq] at he
      exact ⟨hw, by rw [hI.done hw, he]⟩

theorem signal_after_wait_witness :
    Reach osOk (init echo [.start, .wait, .wait]) stuck ∧
    (stuck.h.wait = .done ∧ stuck.waitCalls = [stuck.h.waitErr]) ∧
    (stuck.h.wait = .done ∧ stuck.waitCalls = [none]) ∧
    (stuck.h.wait = .done ∧ stuck.waitCalls = [none]) :=
  have hr : Reach osOk (init echo [.start, .wait, .wait]) stuck :=
    reach_of_exec stuckSched (by decide)
  have h := signal_after_wait osOk echo _ stuck hr
  ⟨hr, h.1 (by decide), (h.2 2 _ rfl).2.1 none rfl,
    (h.2 1 _ rfl).2.2 none (Or.inl ⟨rfl, rfl⟩) rfl⟩

/-- C4 fails: after a successful `Start` and a completed underlying wait that
returned nil, two concurrent `Wait`s reach a state in which the second caller
is at its deferred send on the full channel and no call and no goroutine can
take any action: that `Wait` never returns. -/
theorem concurrent_waits_stuck :
    exec osOk (init echo [.start, .wait, .wait]) stuckSched = some stuck ∧
    stuck.waitCalls = [none] ∧
    stuck.th[2]? = some ⟨.wait, .waitDefer none, none, .finished⟩ ∧
    ∀ (i : Nat) (g : Bool), step osOk stuck i g = none := by
  refine ⟨by decide, rfl, rfl, ?_⟩
  intro i g
  match i with
  | 0 => cases g <;> rfl
  | 1 => cases g <;> rfl
  | 2 => cases g <;> rfl
  | n + 3 => simp [step, stuck]

/-- C5: when `Exited()` is true, a call of `Start` returns the error
"command already exitted" in its first action, which leaves the handle and
the history of underlying starts unchanged, whatever the state of the
`start` once. -/
theorem start_after_exit (P : Prim) (s : Sys) (i : Nat) (t : Thread)
    (hi : s.th[i]? = some t) (hop : t.op = .start) (hpc : t.pc = .startCheck)
    (hex : s.h.Exited = true) :
    step P s i false =
      some { s with
        th := s.th.set i { t with pc := .done (.err (some "command already exitted")) } } := by
  simp [step, hi, caller, hop, hpc, Start, hex]

theorem start_after_exit_witness :
    Reach osOk (init echo [.run, .start]) afterRun ∧ afterRun.h.Exited = true ∧
    step osOk afterRun 1 false =
      some { afterRun with th :=
        [⟨.run, .done (.err none), some none, .finished⟩,
         ⟨.start, .done (.err (some "command already exitted")), none, .idle⟩] } :=
  ⟨reach_of_exec (runSched 0) (by decide), rfl,
   start_after_exit osOk afterRun 1 ⟨.start, .startCheck, none, .idle⟩ rfl rfl rfl rfl⟩

/-- C6: `ExitCode` returns `(-1, "command was not run yet")` exactly when the
process state is nil, returns the exit code of the process state and a nil
error otherwise, and is determined by the process state alone. -/
theorem exitCode_spec (h : Cmd) :
    (h.ExitCode = (-1, some "command was not run yet") ↔ h.cmd.ProcessState = none) ∧
    (∀ ps : ProcessState, h.cmd.ProcessState = some ps → h.ExitCode = (ps.exitCode, none)) ∧
    (∀ h' : Cmd, h'.cmd.ProcessState = h.cmd.ProcessState → h'.ExitCode = h.ExitCode) := by
  refine ⟨?_, ?_, ?_⟩
  · cases hps : h.cmd.ProcessState <;> simp [Cmd.ExitCode, hps]
  · intro ps hps
    simp [Cmd.ExitCode, hps]
  · intro h' hh
    simp [Cmd.ExitCode, hh]

/-- C7 as stated fails: after `Run` on a process terminated by a signal the
process state is available and `Exited` returns false. -/
theorem exited_false_with_state :
    exec osSig (init echo [.run, .exited]) (runSched 0 ++ [(1, false)]) = some afterSignal ∧
    afterSignal.h.cmd.ProcessState = some ⟨-1, false⟩ ∧
    afterSignal.h.Exited = false ∧
    afterSignal.th[1]? = some ⟨.exited, .done (.bool false), none, .idle⟩ := by
  decide

/-- C7 amended: `Exited` returns false when the process state is nil, and
otherwise returns what `Exited()` of the process state reports; so it returns
true exactly when a process state is available and reports an exit. -/
theorem exited_spec (h : Cmd) :
    (h.cmd.ProcessState = none → h.Exited = false) ∧
    (∀ ps : ProcessState, h.cmd.ProcessState = some ps → h.Exited = ps.exited) ∧
    (h.Exited = true ↔ ∃ ps : ProcessState, h.cmd.ProcessState = some ps ∧ ps.exited = true) := by
  refine ⟨?_, ?_, ?_⟩
  · intro hps
    simp [Cmd.Exited, hps]
  · intro ps hps
    simp [Cmd.Exited, hps]
  · cases hps : h.cmd.ProcessState <;> simp [Cmd.Exited, hps]

/-- Method `Start` does not depend on which method the call is: an action of
the `Start` inside `Run` is the action of a call of `Start` at the same
control point. -/
theorem Start_of_start_call (P : Prim) (s : Sys) (t : Thread) (r : Sys × Thread)
    (h : Start P s t = some r) :
    caller P s { t with op := .start } = some (r.1, { r.2 with op := .start }) := by
  rcases Start_cases h with ⟨hp, h1, h2 | h2⟩ | ⟨hp, hst, h1, h2⟩ | ⟨hp, hst, h1, h2⟩
  · have hx : s.h.Exited = false := by
      cases hx : s.h.Exited with
      | false => rfl
      | true =>
        simp only [Start, hp, hx, if_true, Option.some.injEq] at h
        rw [← h] at h2
        simp at h2
    rw [h1, h2]
    simp [caller, Start, hp, hx]
  · have hx : s.h.Exited = true := by
      cases hx : s.h.Exited with
      | true => rfl
      | false =>
        simp only [Start, hp, hx, Bool.false_eq_true, if_false, Option.some.injEq] at h
        rw [← h] at h2
        simp at h2
    rw [h1, h2]
    simp [caller, Start, hp, hx]
  · rw [h1, h2]
    simp [caller, Start, hp, hst]
  · rw [h1, h2]
    simp [caller, Start, hp, hst]

/-- C8: a call of `Run` begins at the entry of `Start`.  Until its `Start`
has returned, each of its actions is the action of `Start` (the one a call of
`Start` takes at the same control point, with the same effect on the handle),
and it is blocked exactly when `Start` is; when that action makes `Start`
return a non-nil error, `Run` has returned exactly that error; when it makes
`Start` return nil, `Run` is at the entry of `Wait`.  After a `Start` that
returned nil its actions are those of `Wait`.  In every reachable state: a
`Run` whose `Start` has not returned is inside `Start` with no goroutine
launched; if `Start` returned a non-nil error, `Run` has returned that error
and the goroutine that calls the underlying wait was never launched by this
call; whenever `Run` has returned, it returned either such a `Start` error
or, after a nil `Start`, the value its `Wait` returned, which is the recorded
result of the one underlying wait. -/
theorem run_composes (P : Prim) (c : ExecCmd) (ops : List Op) (s : Sys)
    (hr : Reach P (init c ops) s) (i : Nat) (t : Thread) (hi : s.th[i]? = some t)
    (hop : t.op = .run) :
    (Thread.new .run).pc = (Thread.new .start).pc ∧
    (t.err = none →
      (Start P s t = none → caller P s t = none) ∧
      ∀ (s' : Sys) (u : Thread), Start P s t = some (s', u) →
        caller P s { t with op := .start } = some (s', { u with op := .start }) ∧
        (u.pc = .startLock → caller P s t = some (s', u)) ∧
        (∀ m : String, u.pc = .done (.err (some m)) →
          caller P s t = some (s', { u with err := some (some m) })) ∧
        (u.pc = .done (.err none) →
          caller P s t = some (s', { u with err := some none, pc := (Thread.new .wait).pc }))) ∧
    (t.err = none → (t.pc = .startCheck ∨ t.pc = .startLock) ∧ t.go = .idle) ∧
    (t.err = some none → caller P s t = Wait s t) ∧
    (∀ e : Error, t.err = some e → e ≠ none → t.pc = .done (.err e) ∧ t.go = .idle) ∧
    (∀ r : Ret, t.pc = .done r → ∃ e : Error, r = .err e ∧
      ((e ≠ none ∧ t.err = some e ∧ t.go = .idle) ∨
       (t.err = some none ∧ t.go ≠ .idle ∧ s.waitCalls = [e] ∧ s.h.waitErr = e))) := by
  have hI := waitInv_reach hr
  obtain ⟨-, h2⟩ := hI.thread i t hi
  unfold pcInv at h2
  refine ⟨rfl, ?_, ?_, ?_, ?_, ?_⟩
  · intro he
    refine ⟨?_, ?_⟩
    · intro h0
      simp [caller, hop, Run, he, h0]
    · intro s' u h0
      refine ⟨Start_of_start_call P s t (s', u) h0, ?_, ?_, ?_⟩
      · intro hp
        simp [caller, hop, Run, he, h0, Thread.afterStart, hp]
      · intro m hp
        simp [caller, hop, Run, he, h0, Thread.afterStart, hp]
      · intro hp
        simp [caller, hop, Run, he, h0, Thread.afterStart, hp, Thread.new, Op.entry]
  · intro he
    cases hp : t.pc <;> simp_all [Thread.inWaitCall]
  · intro he
    simp [caller, hop, Run, he]
  · intro e he hne
    cases hp : t.pc <;> simp_all [Thread.inWaitCall]
  · intro r hp
    simp only [hp] at h2
    by_cases hg : t.go = .idle
    · obtain ⟨e, hre, hne, he⟩ := (h2.1 hg).2 hop
      exact ⟨e, hre, Or.inl ⟨hne, he, hg⟩⟩
    · obtain ⟨hin, hw, hre⟩ := h2.2 hg
      refine ⟨s.h.waitErr, hre, Or.inr ⟨?_, hg, hI.done hw, rfl⟩⟩
      rcases hin with ⟨h1, -⟩ | ⟨-, h1⟩
      · rw [hop] at h1; exact absurd h1 (by decide)
      · exact h1

theorem run_composes_witness :
    (Reach osOk (init echo [.run, .start]) afterRun ∧
      ∃ e : Error, Ret.err none = .err e ∧
        ((e ≠ none ∧ some (none : Error) = some e ∧ Bg.finished = .idle) ∨
         (some (none : Error) = some none ∧ Bg.finished ≠ .idle ∧ afterRun.waitCalls = [e] ∧
           afterRun.h.waitErr = e))) ∧
    (Reach osNoLaunch (init echo [.run]) runNoLaunch ∧
      (Pc.done (.err (some "fork/exec: no such file or directory")) =
        .done (.err (some "fork/exec: no such file or directory")) ∧ Bg.idle = .idle)) :=
  have hr1 : Reach osOk (init echo [.run, .start]) afterRun :=
    reach_of_exec (runSched 0) (by decide)
  have hr2 : Reach osNoLaunch (init echo [.run]) runNoLaunch :=
    reach_of_exec [(0, false), (0, false)] (by decide)
  ⟨⟨hr1, (run_composes osOk echo _ afterRun hr1 0 _ rfl rfl).2.2.2.2.2 _ rfl⟩,
   ⟨hr2, (run_composes osNoLaunch echo _ runNoLaunch hr2 0 _ rfl rfl).2.2.2.2.1 _ rfl
      (by decide)⟩⟩

/-- C10: `WithOutput(w)` binds stdout and stderr to `w` and changes nothing
else: putting the old stdout and stderr back gives the old handle; `WithInput(r)`
binds stdin to `r` and changes nothing else; the call returns the receiver,
and leaves the histories of underlying starts and waits unchanged. -/
theorem withOutput_withInput_frame (h : Cmd) (w r : Stream) :
    ((h.WithOutput w).cmd.Stdout = w ∧ (h.WithOutput w).cmd.Stderr = w ∧
      (h.WithOutput w).cmd.Stdin = h.cmd.Stdin ∧
      (h.WithOutput w).start = h.start ∧ (h.WithOutput w).wait = h.wait ∧
      (h.WithOutput w).waitSem = h.waitSem ∧
      (h.WithOutput w).startErr = h.startErr ∧ (h.WithOutput w).waitErr = h.waitErr ∧
      { h.WithOutput w with
        cmd := { (h.WithOutput w).cmd with Stdout := h.cmd.Stdout, Stderr := h.cmd.Stderr } } = h) ∧
    ((h.WithInput r).cmd.Stdin = r ∧ (h.WithInput r).cmd.Stdout = h.cmd.Stdout ∧
      (h.WithInput r).cmd.Stderr = h.cmd.Stderr ∧
      { h.WithInput r with cmd := { (h.WithInput r).cmd with Stdin := h.cmd.Stdin } } = h) ∧
    (∀ (s : Sys) (t : Thread), t.pc = .call →
      (t.op = .withOutput w →
        query s t = some ({ s with h := s.h.WithOutput w }, { t with pc := .done .self })) ∧
      (t.op = .withInput r →
        query s t = some ({ s with h := s.h.WithInput r }, { t with pc := .done .self }))) := by
  refine ⟨⟨rfl, rfl, rfl, rfl, rfl, rfl, rfl, rfl, rfl⟩, ⟨rfl, rfl, rfl, rfl⟩, ?_⟩
  intro s t hpc
  constructor
  · intro hop
    simp [query, hpc, hop]
  · intro hop
    simp [query, hpc, hop]

/-- C9 fails: on a handle that was never started, a `Wait` returns: the
underlying wait fails at once, and the call returns its error. -/
theorem wait_without_start_returns :
    exec osOk (init echo [.wait]) (waitSched 0) = some neverStarted ∧
    neverStarted.startCalls = [] ∧
    neverStarted.th[0]? = some ⟨.wait, .done (.err (some "exec: not started")), none, .finished⟩ := by
  decide

end Goexec
